import Mathlib

/-!
Shallow embedding of a directed weighted graph container (an ordered
adjacency list) and its graph algorithms (Warshall, Floyd, Dijkstra, Prim),
together with proofs about the embedded operations.

The embedding mirrors the two Python modules `adjlist.py` and `algorithm.py`:
node names are a linearly ordered type (strings in the source), edge weights
are natural numbers (the source assumes non-negative weights), and the
"no edge / unreachable" sentinel `inf` is modelled by `⊤` in `ℕ∞`.
-/

set_option maxHeartbeats 1000000

/-- A linked-list of edges leaving one implicit source node (`class Edge`).
`empty` is the list whose head has `dst = None`; `node dst weight tail`
is a head edge towards `dst` with the given weight, followed by `tail`. -/
inductive Edge (α : Type) where
  | empty : Edge α
  | node (dst : α) (weight : ℕ) (tail : Edge α) : Edge α
deriving DecidableEq

/-- `Edge.add`: add a new edge towards `dst` in lexicographical order, or
update the weight if an edge towards `dst` already exists. -/
def Edge.add [LinearOrder α] : Edge α → α → ℕ → Edge α
  | .empty, dst, w => .node dst w .empty
  | .node d wt t, dst, w =>
      if dst = d then .node d w t
      else if dst < d then .node dst w (.node d wt t)
      else .node d wt (Edge.add t dst w)

/-- `Edge.delete`: delete the edge towards `dst` if it exists
(first occurrence). -/
def Edge.delete [DecidableEq α] : Edge α → α → Edge α
  | .empty, _ => .empty
  | .node d wt t, dst => if dst = d then t else .node d wt (Edge.delete t dst)

/-- `Edge.find`: is there an edge towards `dst` in this sequence? -/
def Edge.find [DecidableEq α] : Edge α → α → Bool
  | .empty, _ => false
  | .node d _ t, dst => if dst = d then true else Edge.find t dst

/-- `Edge.cardinality`: number of edges in this sequence. -/
def Edge.cardinality : Edge α → ℕ
  | .empty => 0
  | .node _ _ t => Edge.cardinality t + 1

/-- `Edge.list(src)`: the sequence as a list of `(src, dst, weight)` triples. -/
def Edge.list : Edge α → α → List (α × α × ℕ)
  | .empty, _ => []
  | .node d w t, src => (src, d, w) :: Edge.list t src

/-- `get_list_of_edges`: the sequence as a list of `(dst, weight)` pairs
(the loop in `AdjacencyList.get_list_of_edges` walks the edge links). -/
def Edge.edgeList : Edge α → List (α × ℕ)
  | .empty => []
  | .node d w t => (d, w) :: Edge.edgeList t

/-- Destinations of an edge sequence, in stored order (spec helper used to
state the per-node ordering invariant). -/
def Edge.dsts : Edge α → List α
  | .empty => []
  | .node d _ t => d :: Edge.dsts t

/-- The per-node representation invariant from the class docstring
("edges lexicographically ordered at all times"): destinations strictly
ascending. -/
def Edge.sortedB [LinearOrder α] : Edge α → Bool
  | .empty => true
  | .node d _ t => (Edge.dsts t).all (fun x => decide (d < x)) && Edge.sortedB t

/-- A linked-list adjacency list (`class AdjacencyList`).  `empty` is the
list whose head has `name = None`; `node name info edges tail` is a head
node with auxiliary info, its outgoing edges, and the remaining nodes. -/
inductive AdjacencyList (α ι : Type) where
  | empty : AdjacencyList α ι
  | node (name : α) (info : Option ι) (edges : Edge α) (tail : AdjacencyList α ι) :
      AdjacencyList α ι
deriving DecidableEq

/-- `is_empty`. -/
def AdjacencyList.is_empty : AdjacencyList α ι → Bool
  | .empty => true
  | .node _ _ _ _ => false

/-- `add_node(name, info)`: inserts a node in lexicographical order.  Mirrors
the source exactly: there is no equality case, so when `name` equals the head
name the call recurses into the tail (the docstring promises an info update
instead). -/
def AdjacencyList.add_node [LinearOrder α] :
    AdjacencyList α ι → α → Option ι → AdjacencyList α ι
  | .empty, name, info => .node name info .empty .empty
  | .node n i e t, name, info =>
      if name < n then .node name info .empty (.node n i e t)
      else .node n i e (AdjacencyList.add_node t name info)

/-- `delete_node(name)`: deletes the node named `name` if it is a member
(first occurrence; recursion stops once the head name exceeds `name`). -/
def AdjacencyList.delete_node [LinearOrder α] :
    AdjacencyList α ι → α → AdjacencyList α ι
  | .empty, _ => .empty
  | .node n i e t, name =>
      if n = name then t
      else if n < name then .node n i e (AdjacencyList.delete_node t name)
      else .node n i e t

/-- `find_node(name)`. -/
def AdjacencyList.find_node [DecidableEq α] : AdjacencyList α ι → α → Bool
  | .empty, _ => false
  | .node n _ _ t, name => if name = n then true else AdjacencyList.find_node t name

/-- `node_cardinality()`. -/
def AdjacencyList.node_cardinality : AdjacencyList α ι → ℕ
  | .empty => 0
  | .node _ _ _ t => AdjacencyList.node_cardinality t + 1

/-- `_add_edge(src, dst, weight)`: adds or updates the edge at the node named
`src`.  Pre (from the caller `add_edge`): `src` is a member; on the empty list
the source would raise, which is unreachable under the precondition. -/
def AdjacencyList._add_edge [LinearOrder α] :
    AdjacencyList α ι → α → α → ℕ → AdjacencyList α ι
  | .empty, _, _, _ => .empty
  | .node n i e t, src, dst, w =>
      if src = n then .node n i (e.add dst w) t
      else if n < src then .node n i e (AdjacencyList._add_edge t src dst w)
      else .node n i e t

/-- `add_edge(src, dst, weight)`: no-op unless both `src` and `dst` are
members; otherwise inserts or updates the `(src, dst)` edge. -/
def AdjacencyList.add_edge [LinearOrder α]
    (g : AdjacencyList α ι) (src dst : α) (w : ℕ) : AdjacencyList α ι :=
  if !g.find_node dst || !g.find_node src then g else g._add_edge src dst w

/-- `delete_edges(name)`: deletes all edges towards node `name`
(one `Edge.delete` per node). -/
def AdjacencyList.delete_edges [DecidableEq α] :
    AdjacencyList α ι → α → AdjacencyList α ι
  | .empty, _ => .empty
  | .node n i e t, name => .node n i (e.delete name) (AdjacencyList.delete_edges t name)

/-- `edge_cardinality()`. -/
def AdjacencyList.edge_cardinality : AdjacencyList α ι → ℕ
  | .empty => 0
  | .node _ _ e t => AdjacencyList.edge_cardinality t + e.cardinality

/-- `list_nodes()`: node names in stored order. -/
def AdjacencyList.list_nodes : AdjacencyList α ι → List α
  | .empty => []
  | .node n _ _ t => n :: AdjacencyList.list_nodes t

/-- `list_edges()`: all `(src, dst, weight)` triples in stored order. -/
def AdjacencyList.list_edges : AdjacencyList α ι → List (α × α × ℕ)
  | .empty => []
  | .node n _ e t => e.list n ++ AdjacencyList.list_edges t

/-- `get_index(dst)`: position of `dst` in the node order.  Pre: `dst` is a
member (on a miss the source would raise off the end of the list). -/
def AdjacencyList.get_index [DecidableEq α] : AdjacencyList α ι → α → ℕ
  | .empty, _ => 0
  | .node n _ _ t, dst => if dst = n then 0 else AdjacencyList.get_index t dst + 1

/-- `get_node(name).get_list_of_edges()`: the `(dst, weight)` pairs of the
first node named `name` (`get_node` returns the first match; absent names
would make the source raise downstream, unreachable under the invariant). -/
def AdjacencyList.edgesOf [DecidableEq α] : AdjacencyList α ι → α → List (α × ℕ)
  | .empty, _ => []
  | .node n _ e t, name => if n = name then e.edgeList else AdjacencyList.edgesOf t name

/-- The representation invariant from the class docstring ("keeps its nodes
and edges lexicographically ordered at all times"): node names strictly
ascending and every node's edge destinations strictly ascending. -/
def AdjacencyList.wf [LinearOrder α] : AdjacencyList α ι → Bool
  | .empty => true
  | .node n _ e t =>
      (AdjacencyList.list_nodes t).all (fun m => decide (n < m)) &&
      e.sortedB && AdjacencyList.wf t

/-! ## Matrix algorithms (`algorithm.py`) -/

/-- Matrices are total functions on indices; the source's `n × n` Python list
corresponds to the window of cells with both indices below `n`, and the
`inf` sentinel is `⊤ : ℕ∞`. -/
abbrev Mat : Type := ℕ → ℕ → ℕ∞

/-- Write one matrix cell (`matrix[r][c] = v`). -/
def updMat (m : Mat) (r c : ℕ) (v : ℕ∞) : Mat :=
  fun x y => if x = r then (if y = c then v else m x y) else m x y

/-- The inner loop body of `create_adjacency_matrix`: write the weights of one
node's edge list into row `index` (`matrix[index][get_index(dst)] = weight`).
The source iterates a generous `edge_cardinality()` times with an
`is_empty` guard, which walks exactly the node's own edge list. -/
def writeEdges [DecidableEq α] (g : AdjacencyList α ι) (index : ℕ) :
    Edge α → Mat → Mat
  | .empty, m => m
  | .node dst w t, m => writeEdges g index t (updMat m index (g.get_index dst) (w : ℕ∞))

/-- `create_adjacency_matrix(matrix, index, currNode)`: fill one row per node,
walking `currNode` while incrementing `index`; `get_index` is taken on the
whole list `g` (the `self` receiver). -/
def create_adjacency_matrix [DecidableEq α] (g : AdjacencyList α ι) :
    Mat → ℕ → AdjacencyList α ι → Mat
  | m, _, .empty => m
  | m, index, .node _ _ edges tail =>
      create_adjacency_matrix g (writeEdges g index edges m) (index + 1) tail

/-- One assignment of Floyd's innermost loop:
`matrix[j][k] = min(matrix[j][k], matrix[j][i] + matrix[i][k])`
(`i` is the current intermediate node of the outermost loop). -/
def floydStepK (i j : ℕ) (m : Mat) (k : ℕ) : Mat :=
  updMat m j k (min (m j k) (m j i + m i k))

/-- The body of Floyd's middle loop for row `j`: first `if i == j:
matrix[i][j] = 0`, then the sweep over `k in range(n)`. -/
def floydStepJ (n i : ℕ) (m : Mat) (j : ℕ) : Mat :=
  (List.range n).foldl (floydStepK i j) (if i = j then updMat m i j 0 else m)

/-- One round of Floyd's outermost loop (intermediate node `i`). -/
def floydRound (n i : ℕ) (m : Mat) : Mat :=
  (List.range n).foldl (floydStepJ n i) m

/-- Floyd's triple loop over an initial matrix. -/
def floydLoop (n : ℕ) (m : Mat) : Mat :=
  (List.range n).foldl (fun m i => floydRound n i m) m

/-- `floyd(adjlist)`: build the adjacency matrix over an `inf`-initialized
matrix, then run the triple relaxation loop. -/
def floyd [DecidableEq α] (g : AdjacencyList α ι) : Mat :=
  floydLoop g.node_cardinality (create_adjacency_matrix g (fun _ _ => ⊤) 0 g)

/-- `warshall(adjlist)`: run `floyd`, then map `inf` to `False` and every
finite distance to `True`. -/
def warshall [DecidableEq α] (g : AdjacencyList α ι) : ℕ → ℕ → Bool :=
  fun i j => if floyd g i j = ⊤ then false else true

/-! ## Dijkstra and Prim (`algorithm.py`) -/

/-- The scratch state the algorithms smuggle through each node's info slot:
current best cost and predecessor name, keyed by node name (names are unique
under the representation invariant). -/
abbrev Scr (α : Type) : Type := α → ℕ∞ × Option α

/-- Overwrite one node's scratch entry (`node.set_info([c, p])`). -/
def updScr [DecidableEq α] (s : Scr α) (x : α) (p : ℕ∞ × Option α) : Scr α :=
  fun y => if y = x then p else s y

/-- `initialize_single_source`: cost `0` for the start node, `inf`
otherwise, predecessors `None`. -/
def initScr [DecidableEq α] (start : α) : Scr α :=
  fun x => if start = x then ((0 : ℕ∞), none) else ((⊤ : ℕ∞), none)

/-- A stable insertion of `x` into a sorted list: `x` goes in front of the
first element not strictly below it.  Together with `stableSort` this models
Python's stable `list.sort`. -/
def stableInsert (lt : α → α → Bool) (x : α) : List α → List α
  | [] => [x]
  | y :: ys => if lt y x then y :: stableInsert lt x ys else x :: y :: ys

/-- Stable sort (same result as Python's stable `list.sort` for the given
strict key comparison). -/
def stableSort (lt : α → α → Bool) : List α → List α
  | [] => []
  | x :: xs => stableInsert lt x (stableSort lt xs)

/-- Comparison used by `tmp_queue.sort(key=lambda node: node.get_info()[0])`. -/
def ltCost (s : Scr α) (a b : α) : Bool := decide ((s a).1 < (s b).1)

/-- `relax(v, u, weight)`: if `v.info[0] > u.info[0] + weight`, set
`v.info = [u.info[0] + weight, u.name]`. -/
def relax [DecidableEq α] (v u : α) (w : ℕ) (s : Scr α) : Scr α :=
  if (s u).1 + (w : ℕ∞) < (s v).1 then updScr s v ((s u).1 + (w : ℕ∞), some u) else s

/-- The `while` loop of `dijkstra`: sort the queue by cost (stably), pop the
front node, relax along its outgoing edges, and keep the visited list sorted
by name.  The fuel argument is the queue length; exactly one node is popped
per iteration, so the loop ends precisely when the queue empties. -/
def dijkstraGo [LinearOrder α] (g : AdjacencyList α ι) :
    ℕ → List α → Scr α → List α → List α × Scr α
  | 0, _, s, vis => (vis, s)
  | fuel + 1, q, s, vis =>
      match stableSort (ltCost s) q with
      | [] => (vis, s)
      | u :: rest =>
          dijkstraGo g fuel rest
            ((g.edgesOf u).foldl (fun s dw => relax dw.1 u dw.2 s) s)
            (stableSort (fun a b => decide (a < b)) (vis ++ [u]))

/-- The visited list and final scratch state of a `dijkstra` run. -/
def dijkstraState [LinearOrder α] (g : AdjacencyList α ι) (start : α) :
    List α × Scr α :=
  dijkstraGo g g.list_nodes.length g.list_nodes (initScr start) []

/-- `dijkstra(adjlist, start_node)`: emit distance and predecessor arrays
over the visited nodes (all nodes, in ascending name order); a node whose
final cost is `0` is reported as `(None, None)`. -/
def dijkstra [LinearOrder α] (g : AdjacencyList α ι) (start : α) :
    List (Option ℕ∞) × List (Option α) :=
  ((dijkstraState g start).1.map
      (fun x => if ((dijkstraState g start).2 x).1 = 0 then none
                else some ((dijkstraState g start).2 x).1),
   (dijkstraState g start).1.map
      (fun x => if ((dijkstraState g start).2 x).1 = 0 then none
                else ((dijkstraState g start).2 x).2))

/-- The `while` loop of `prim`: sort the queue by cost, pop the front node
`u`, and for each edge `(dst, w)` of `u` with `dst` still in the queue and
`w` below its current cost, set `dst.info = [w, u.name]`. -/
def primGo [LinearOrder α] (g : AdjacencyList α ι) :
    ℕ → List α → Scr α → Scr α
  | 0, _, s => s
  | fuel + 1, q, s =>
      match stableSort (ltCost s) q with
      | [] => s
      | u :: rest =>
          primGo g fuel rest
            ((g.edgesOf u).foldl
              (fun s dw =>
                if dw.1 ∈ rest ∧ (dw.2 : ℕ∞) < (s dw.1).1
                then updScr s dw.1 ((dw.2 : ℕ∞), some u) else s) s)

/-- The final scratch state of a `prim` run. -/
def primScr [LinearOrder α] (g : AdjacencyList α ι) (start : α) : Scr α :=
  primGo g g.list_nodes.length g.list_nodes (initScr start)

/-- `prim(adjlist, start_node)`: emit lowcost and closest arrays over
`get_list_of_nodes()` (stored node order); a node whose final cost is `0`
is reported as `(None, None)`. -/
def prim [LinearOrder α] (g : AdjacencyList α ι) (start : α) :
    List (Option ℕ∞) × List (Option α) :=
  (g.list_nodes.map
      (fun x => if (primScr g start x).1 = 0 then none else some (primScr g start x).1),
   g.list_nodes.map
      (fun x => if (primScr g start x).1 = 0 then none else (primScr g start x).2))

/-! ## Definitions used only to state and prove properties -/

/-- The pointwise effect of one full Floyd round with intermediate node `i`
(proved below in `floydRound_apply`): the diagonal cell `(i, i)` becomes `0`,
every other in-window cell is relaxed through `i`. -/
def roundF (i : ℕ) (m : Mat) (x y : ℕ) : ℕ∞ :=
  if x = i ∧ y = i then 0 else min (m x y) (m x i + m i y)

/-- The triangle inequality through intermediate node `k`, restricted to the
`n × n` window the source's Python matrix actually holds. -/
def TriIneq (n k : ℕ) (m : Mat) : Prop :=
  ∀ x y, x < n → y < n → m x y ≤ m x k + m k y

/-! ## Concrete example graphs

Node names in the source are strings ordered lexicographically; the kernel
cannot reduce `String.ltb`, so the examples use the naturals `0 < 1 < 2`
standing for the names `"a" < "b" < "c"`. -/

/-- The empty graph. -/
def gEmpty : AdjacencyList ℕ ℕ := AdjacencyList.empty

/-- Nodes a, b, c with edges a→b (weight 1) and b→c (weight 2) —
the Dijkstra example graph. -/
def gABC : AdjacencyList ℕ ℕ :=
  ((((gEmpty.add_node 0 none).add_node 1 none).add_node 2 none).add_edge 0 1 1).add_edge 1 2 2

/-- Undirected (mirrored) graph on a, b, c with a–b (1), a–c (3),
b–c (1) — the Prim example graph. -/
def gPrim3 : AdjacencyList ℕ ℕ :=
  ((((((((gEmpty.add_node 0 none).add_node 1 none).add_node 2 none
    ).add_edge 0 1 1).add_edge 1 0 1
    ).add_edge 0 2 3).add_edge 2 0 3
    ).add_edge 1 2 1).add_edge 2 1 1

/-- Nodes a, b with a zero-weight edge a→b. -/
def gZero : AdjacencyList ℕ ℕ :=
  ((gEmpty.add_node 0 none).add_node 1 none).add_edge 0 1 0

/-- Nodes a, b with the edge a→b (weight 1). -/
def gAB : AdjacencyList ℕ ℕ :=
  ((gEmpty.add_node 0 none).add_node 1 none).add_edge 0 1 1

/-! ## Matrix lemmas -/

theorem updMat_apply (m : Mat) (r c x y : ℕ) (v : ℕ∞) :
    updMat m r c v x y = if x = r ∧ y = c then v else m x y := by
  unfold updMat
  by_cases hx : x = r <;> by_cases hy : y = c <;> simp [hx, hy]

theorem min_self_add (x y : ℕ∞) : min x (x + y) = x := min_eq_left le_self_add

theorem min_add_self (x y : ℕ∞) : min x (y + x) = x := min_eq_left le_add_self

theorem floydStepK_apply (i j k : ℕ) (m : Mat) (x y : ℕ) :
    floydStepK i j m k x y =
      if x = j ∧ y = k then min (m j k) (m j i + m i k) else m x y := by
  unfold floydStepK
  exact updMat_apply ..

theorem floydStepK_row_other (i j k : ℕ) (m : Mat) (x y : ℕ) (hx : x ≠ j) :
    floydStepK i j m k x y = m x y := by
  rw [floydStepK_apply]
  simp [hx]

theorem floydStepK_ji (i j k : ℕ) (m : Mat) :
    floydStepK i j m k j i = m j i := by
  rw [floydStepK_apply]
  by_cases hik : i = k
  · rw [if_pos ⟨rfl, hik⟩, ← hik]
    exact min_self_add _ _
  · rw [if_neg (show ¬(j = j ∧ i = k) by simp [hik])]

theorem floydStepK_iy (i j k : ℕ) (m : Mat) (y : ℕ) :
    floydStepK i j m k i y = m i y := by
  by_cases hij : i = j
  · rw [floydStepK_apply]
    by_cases hyk : y = k
    · rw [if_pos ⟨hij, hyk⟩, hij, hyk]
      exact min_add_self _ _
    · rw [if_neg (show ¬(i = j ∧ y = k) by simp [hyk])]
  · exact floydStepK_row_other i j k m i y hij

theorem foldK_apply (i j : ℕ) (ks : List ℕ) (hnd : ks.Nodup) (m : Mat) (x y : ℕ) :
    (ks.foldl (floydStepK i j) m) x y =
      if x = j ∧ y ∈ ks then min (m j y) (m j i + m i y) else m x y := by
  induction ks generalizing m with
  | nil => simp
  | cons k ks ih =>
    obtain ⟨hknot, hnd2⟩ := List.nodup_cons.mp hnd
    rw [List.foldl_cons, ih hnd2]
    by_cases hx : x = j
    · rw [hx]
      by_cases hmem : y ∈ ks
      · have hyk : y ≠ k := fun h => hknot (h ▸ hmem)
        rw [if_pos ⟨rfl, hmem⟩, if_pos ⟨rfl, List.mem_cons_of_mem k hmem⟩,
          floydStepK_apply i j k m j y,
          if_neg (show ¬(j = j ∧ y = k) by simp [hyk]),
          floydStepK_ji, floydStepK_iy]
      · rw [if_neg (show ¬(j = j ∧ y ∈ ks) by simp [hmem])]
        by_cases hyk : y = k
        · rw [hyk, if_pos ⟨rfl, List.mem_cons_self k ks⟩,
            floydStepK_apply i j k m j k, if_pos ⟨rfl, rfl⟩]
        · rw [if_neg (show ¬(j = j ∧ y ∈ k :: ks) by simp [hyk, hmem]),
            floydStepK_apply i j k m j y,
            if_neg (show ¬(j = j ∧ y = k) by simp [hyk])]
    · rw [if_neg (show ¬(x = j ∧ y ∈ ks) by simp [hx]),
        if_neg (show ¬(x = j ∧ y ∈ k :: ks) by simp [hx]),
        floydStepK_row_other i j k m x y hx]

theorem floydStepJ_off (n i j : ℕ) (hij : i ≠ j) (m : Mat) (x y : ℕ) :
    floydStepJ n i m j x y =
      if x = j ∧ y < n then min (m j y) (m j i + m i y) else m x y := by
  unfold floydStepJ
  rw [if_neg hij, foldK_apply i j (List.range n) (List.nodup_range n) m x y]
  simp [List.mem_range]

theorem floydStepJ_diag (n i : ℕ) (hi : i < n) (m : Mat) (x y : ℕ) :
    floydStepJ n i m i x y = if x = i ∧ y = i then 0 else m x y := by
  unfold floydStepJ
  rw [if_pos rfl, foldK_apply i i (List.range n) (List.nodup_range n)]
  by_cases hx : x = i
  · rw [hx]
    by_cases hyi : y = i
    · rw [hyi, if_pos ⟨rfl, List.mem_range.mpr hi⟩, if_pos ⟨rfl, rfl⟩,
        updMat_apply, if_pos ⟨rfl, rfl⟩]
      simp
    · rw [if_neg (show ¬(i = i ∧ y = i) by simp [hyi])]
      by_cases hyn : y < n
      · rw [if_pos ⟨rfl, List.mem_range.mpr hyn⟩,
          updMat_apply m i i i y 0, if_neg (show ¬(i = i ∧ y = i) by simp [hyi]),
          updMat_apply m i i i i 0, if_pos ⟨rfl, rfl⟩]
        simp
      · rw [if_neg (show ¬(i = i ∧ y ∈ List.range n) by simp [List.mem_range, hyn]),
          updMat_apply m i i i y 0, if_neg (show ¬(i = i ∧ y = i) by simp [hyi])]
  · rw [if_neg (show ¬(x = i ∧ y = i) by simp [hx]),
      if_neg (show ¬(x = i ∧ y ∈ List.range n) by simp [hx]),
      updMat_apply m i i x y 0, if_neg (show ¬(x = i ∧ y = i) by simp [hx])]

theorem floydStepJ_row_other (n i j : ℕ) (hi : i < n) (m : Mat) (x y : ℕ) (hxj : x ≠ j) :
    floydStepJ n i m j x y = m x y := by
  by_cases hij : i = j
  · rw [← hij] at hxj
    rw [← hij, floydStepJ_diag n i hi, if_neg (show ¬(x = i ∧ y = i) by simp [hxj])]
  · rw [floydStepJ_off n i j hij, if_neg (show ¬(x = j ∧ y < n) by simp [hxj])]

theorem floydStepJ_col_out (n i j : ℕ) (hi : i < n) (m : Mat) (x y : ℕ) (hyn : ¬ y < n) :
    floydStepJ n i m j x y = m x y := by
  by_cases hij : i = j
  · have hyi : y ≠ i := by omega
    rw [← hij, floydStepJ_diag n i hi, if_neg (show ¬(x = i ∧ y = i) by simp [hyi])]
  · rw [floydStepJ_off n i j hij, if_neg (show ¬(x = j ∧ y < n) by simp [hyn])]

theorem floydStepJ_row_self (n i j : ℕ) (hi : i < n) (m : Mat) (y : ℕ) (hyn : y < n) :
    floydStepJ n i m j j y = roundF i m j y := by
  by_cases hij : i = j
  · rw [← hij, floydStepJ_diag n i hi]
    unfold roundF
    by_cases hyi : y = i
    · rw [if_pos ⟨rfl, hyi⟩, if_pos ⟨rfl, hyi⟩]
    · rw [if_neg (show ¬(i = i ∧ y = i) by simp [hyi]),
        if_neg (show ¬(i = i ∧ y = i) by simp [hyi]), min_add_self]
  · rw [floydStepJ_off n i j hij, if_pos ⟨rfl, hyn⟩]
    unfold roundF
    rw [if_neg (show ¬(j = i ∧ y = i) from fun h => hij h.1.symm)]

theorem roundF_stepJ (n i j : ℕ) (hi : i < n) (m : Mat) (x y : ℕ) (hxj : x ≠ j) :
    roundF i (floydStepJ n i m j) x y = roundF i m x y := by
  unfold roundF
  by_cases hxyi : x = i ∧ y = i
  · rw [if_pos hxyi, if_pos hxyi]
  · rw [if_neg hxyi, if_neg hxyi,
      floydStepJ_row_other n i j hi m x y hxj, floydStepJ_row_other n i j hi m x i hxj]
    by_cases hij : i = j
    · rw [← hij, floydStepJ_diag n i hi]
      by_cases hyi : y = i
      · rw [hyi, if_pos ⟨rfl, rfl⟩]
        rw [add_zero, min_self, min_self_add]
      · rw [if_neg (show ¬(i = i ∧ y = i) by simp [hyi])]
    · rw [floydStepJ_row_other n i j hi m i y hij]

theorem foldJ_apply (n i : ℕ) (hi : i < n) (js : List ℕ) (hnd : js.Nodup) (m : Mat)
    (x y : ℕ) :
    (js.foldl (floydStepJ n i) m) x y =
      if x ∈ js ∧ y < n then roundF i m x y else m x y := by
  induction js generalizing m with
  | nil => simp
  | cons j js ih =>
    obtain ⟨hjnot, hnd2⟩ := List.nodup_cons.mp hnd
    rw [List.foldl_cons, ih hnd2]
    by_cases hyn : y < n
    · by_cases hxjs : x ∈ js
      · have hxj : x ≠ j := fun h => hjnot (h ▸ hxjs)
        rw [if_pos ⟨hxjs, hyn⟩, if_pos ⟨List.mem_cons_of_mem j hxjs, hyn⟩,
          roundF_stepJ n i j hi m x y hxj]
      · rw [if_neg (show ¬(x ∈ js ∧ y < n) by simp [hxjs])]
        by_cases hxj : x = j
        · rw [hxj, if_pos ⟨List.mem_cons_self j js, hyn⟩,
            floydStepJ_row_self n i j hi m y hyn]
        · rw [if_neg (show ¬(x ∈ j :: js ∧ y < n) by simp [hxj, hxjs]),
            floydStepJ_row_other n i j hi m x y hxj]
    · rw [if_neg (show ¬(x ∈ js ∧ y < n) by simp [hyn]),
        if_neg (show ¬(x ∈ j :: js ∧ y < n) by simp [hyn]),
        floydStepJ_col_out n i j hi m x y hyn]

theorem floydRound_apply (n i : ℕ) (hi : i < n) (m : Mat) (x y : ℕ) :
    floydRound n i m x y = if x < n ∧ y < n then roundF i m x y else m x y := by
  unfold floydRound
  rw [foldJ_apply n i hi (List.range n) (List.nodup_range n)]
  simp [List.mem_range]

theorem roundF_le_left (i : ℕ) (m : Mat) (x y : ℕ) : roundF i m x y ≤ m x y := by
  unfold roundF
  split
  · exact zero_le _
  · exact min_le_left _ _

theorem roundF_le_right (i : ℕ) (m : Mat) (x y : ℕ) : roundF i m x y ≤ m x i + m i y := by
  unfold roundF
  split
  · exact zero_le _
  · exact min_le_right _ _

theorem floydRound_diag_self (n i : ℕ) (hi : i < n) (m : Mat) : floydRound n i m i i = 0 := by
  rw [floydRound_apply n i hi, if_pos ⟨hi, hi⟩]
  unfold roundF
  rw [if_pos ⟨rfl, rfl⟩]

theorem floydRound_diag_keep (n t d : ℕ) (ht : t < n) (m : Mat) (hd : m d d = 0) :
    floydRound n t m d d = 0 := by
  rw [floydRound_apply n t ht]
  by_cases hdn : d < n
  · rw [if_pos ⟨hdn, hdn⟩]
    unfold roundF
    by_cases hdt : d = t
    · rw [if_pos ⟨hdt, hdt⟩]
    · rw [if_neg (show ¬(d = t ∧ d = t) by simp [hdt]), hd]
      exact min_eq_left (zero_le _)
  · rw [if_neg (show ¬(d < n ∧ d < n) by simp [hdn]), hd]

theorem floydFold_diag_keep (n d : ℕ) (l : List ℕ) (hl : ∀ x ∈ l, x < n) (m : Mat)
    (hd : m d d = 0) : (l.foldl (fun m i => floydRound n i m) m) d d = 0 := by
  induction l generalizing m with
  | nil => exact hd
  | cons t l ih =>
    rw [List.foldl_cons]
    exact ih (fun x hx => hl x (List.mem_cons_of_mem t hx)) _
      (floydRound_diag_keep n t d (hl t (List.mem_cons_self t l)) m hd)

theorem floydFold_diag (n d : ℕ) (l : List ℕ) (hl : ∀ x ∈ l, x < n) (hdl : d ∈ l)
    (m : Mat) : (l.foldl (fun m i => floydRound n i m) m) d d = 0 := by
  induction l generalizing m with
  | nil => cases hdl
  | cons t l ih =>
    rw [List.foldl_cons]
    by_cases hdt : d = t
    · subst hdt
      exact floydFold_diag_keep n d l (fun x hx => hl x (List.mem_cons_of_mem d hx)) _
        (floydRound_diag_self n d (hl d (List.mem_cons_self d l)) m)
    · exact ih (fun x hx => hl x (List.mem_cons_of_mem t hx))
        (List.mem_of_ne_of_mem hdt hdl) _

theorem roundF_self (i : ℕ) (m : Mat) : roundF i m i i = 0 := by
  unfold roundF
  rw [if_pos ⟨rfl, rfl⟩]

theorem roundF_ne (i : ℕ) (m : Mat) (x y : ℕ) (h : ¬(x = i ∧ y = i)) :
    roundF i m x y = min (m x y) (m x i + m i y) := by
  unfold roundF
  rw [if_neg h]

theorem floydRound_estab (n k : ℕ) (hk : k < n) (m : Mat) :
    TriIneq n k (floydRound n k m) := by
  intro x y hx hy
  rw [floydRound_apply n k hk m x y, if_pos ⟨hx, hy⟩,
    floydRound_apply n k hk m x k, if_pos ⟨hx, hk⟩,
    floydRound_apply n k hk m k y, if_pos ⟨hk, hy⟩]
  by_cases hxk : x = k
  · rw [hxk, roundF_self, zero_add]
  · by_cases hyk : y = k
    · rw [hyk, roundF_self, add_zero]
    · rw [roundF_ne k m x y (show ¬(x = k ∧ y = k) by simp [hxk]),
        roundF_ne k m x k (show ¬(x = k ∧ k = k) by simp [hxk]),
        roundF_ne k m k y (show ¬(k = k ∧ y = k) by simp [hyk]),
        min_self_add, min_add_self]
      exact min_le_right _ _

theorem floydRound_keep (n k t : ℕ) (hk : k < n) (ht : t < n) (m : Mat)
    (hT : TriIneq n k m) : TriIneq n k (floydRound n t m) := by
  intro x y hx hy
  rw [floydRound_apply n t ht m x y, if_pos ⟨hx, hy⟩,
    floydRound_apply n t ht m x k, if_pos ⟨hx, hk⟩,
    floydRound_apply n t ht m k y, if_pos ⟨hk, hy⟩]
  by_cases hxkt : x = t ∧ k = t
  · rw [hxkt.1, hxkt.2, roundF_self, zero_add]
  · by_cases hkyt : k = t ∧ y = t
    · rw [hkyt.1, hkyt.2, roundF_self, add_zero]
    · rw [roundF_ne t m x k hxkt, roundF_ne t m k y hkyt]
      rcases min_cases (m x k) (m x t + m t k) with ⟨hB, _⟩ | ⟨hB, _⟩ <;>
        rcases min_cases (m k y) (m k t + m t y) with ⟨hC, _⟩ | ⟨hC, _⟩ <;>
        rw [hB, hC]
      · exact (roundF_le_left t m x y).trans (hT x y hx hy)
      · calc roundF t m x y ≤ m x t + m t y := roundF_le_right t m x y
          _ ≤ (m x k + m k t) + m t y := add_le_add_right (hT x t hx ht) _
          _ = m x k + (m k t + m t y) := add_assoc _ _ _
      · calc roundF t m x y ≤ m x t + m t y := roundF_le_right t m x y
          _ ≤ m x t + (m t k + m k y) := add_le_add_left (hT t y ht hy) _
          _ = m x t + m t k + m k y := (add_assoc _ _ _).symm
      · calc roundF t m x y ≤ m x t + m t y := roundF_le_right t m x y
          _ ≤ m x t + (m t k + (m k t + m t y)) :=
              add_le_add_left
                ((le_add_self : m t y ≤ m k t + m t y).trans le_add_self) _
          _ = m x t + m t k + (m k t + m t y) := (add_assoc _ _ _).symm

theorem floydFold_T_keep (n k : ℕ) (hk : k < n) (l : List ℕ) (hl : ∀ x ∈ l, x < n)
    (m : Mat) (hT : TriIneq n k m) :
    TriIneq n k (l.foldl (fun m i => floydRound n i m) m) := by
  induction l generalizing m with
  | nil => exact hT
  | cons t l ih =>
    rw [List.foldl_cons]
    exact ih (fun x hx => hl x (List.mem_cons_of_mem t hx)) _
      (floydRound_keep n k t hk (hl t (List.mem_cons_self t l)) m hT)

theorem floydFold_T (n k : ℕ) (hk : k < n) (l : List ℕ) (hl : ∀ x ∈ l, x < n)
    (hkl : k ∈ l) (m : Mat) :
    TriIneq n k (l.foldl (fun m i => floydRound n i m) m) := by
  induction l generalizing m with
  | nil => cases hkl
  | cons t l ih =>
    rw [List.foldl_cons]
    by_cases hkt : k = t
    · subst hkt
      exact floydFold_T_keep n k hk l (fun x hx => hl x (List.mem_cons_of_mem k hx)) _
        (floydRound_estab n k hk m)
    · exact ih (fun x hx => hl x (List.mem_cons_of_mem t hx))
        (List.mem_of_ne_of_mem hkt hkl) _

/-! ## Edge-sequence lemmas -/

theorem Edge.find_iff [DecidableEq α] (e : Edge α) (dst : α) :
    e.find dst = true ↔ dst ∈ e.dsts := by
  induction e with
  | empty => simp [Edge.find, Edge.dsts]
  | node d w t ih => by_cases h : dst = d <;> simp [Edge.find, Edge.dsts, h, ih]

theorem Edge.sortedB_node [LinearOrder α] (d : α) (w : ℕ) (t : Edge α) :
    (Edge.node d w t).sortedB = true ↔ (∀ x ∈ t.dsts, d < x) ∧ t.sortedB = true := by
  simp [Edge.sortedB, List.all_eq_true]

theorem Edge.mem_dsts_add [LinearOrder α] (e : Edge α) (dst x : α) (w : ℕ) :
    x ∈ (e.add dst w).dsts ↔ x = dst ∨ x ∈ e.dsts := by
  induction e with
  | empty => simp [Edge.add, Edge.dsts]
  | node d wt t ih =>
    by_cases h1 : dst = d
    · subst h1
      simp [Edge.add, Edge.dsts]
    · by_cases h2 : dst < d
      · simp [Edge.add, h1, h2, Edge.dsts]
      · simp [Edge.add, h1, h2, Edge.dsts, ih]
        tauto

theorem Edge.sortedB_add [LinearOrder α] (e : Edge α) (dst : α) (w : ℕ)
    (hs : e.sortedB = true) : (e.add dst w).sortedB = true := by
  induction e with
  | empty => simp [Edge.add, Edge.sortedB, Edge.dsts]
  | node d wt t ih =>
    rw [Edge.sortedB_node] at hs
    obtain ⟨hd, ht⟩ := hs
    by_cases h1 : dst = d
    · subst h1
      rw [show Edge.add (Edge.node dst wt t) dst w = Edge.node dst w t by
        simp [Edge.add]]
      exact (Edge.sortedB_node ..).mpr ⟨hd, ht⟩
    · by_cases h2 : dst < d
      · rw [show Edge.add (Edge.node d wt t) dst w
            = Edge.node dst w (Edge.node d wt t) by simp [Edge.add, h1, h2]]
        rw [Edge.sortedB_node]
        refine ⟨?_, (Edge.sortedB_node ..).mpr ⟨hd, ht⟩⟩
        intro x hx
        rcases List.mem_cons.mp hx with hx | hx
        · exact hx ▸ h2
        · exact h2.trans (hd x hx)
      · have h3 : d < dst := by
          rcases lt_trichotomy dst d with h | h | h
          · exact absurd h h2
          · exact absurd h h1
          · exact h
        rw [show Edge.add (Edge.node d wt t) dst w
            = Edge.node d wt (t.add dst w) by simp [Edge.add, h1, h2]]
        rw [Edge.sortedB_node]
        refine ⟨?_, ih ht⟩
        intro x hx
        rcases (Edge.mem_dsts_add t dst x w).mp hx with hx | hx
        · exact hx ▸ h3
        · exact hd x hx

theorem Edge.find_add_self [LinearOrder α] (e : Edge α) (dst : α) (w : ℕ) :
    (e.add dst w).find dst = true := by
  rw [Edge.find_iff, Edge.mem_dsts_add]
  exact Or.inl rfl

theorem Edge.cardinality_add_present [LinearOrder α] (e : Edge α) (dst : α) (w : ℕ)
    (hs : e.sortedB = true) (hf : e.find dst = true) :
    (e.add dst w).cardinality = e.cardinality := by
  induction e with
  | empty => simp [Edge.find] at hf
  | node d wt t ih =>
    rw [Edge.sortedB_node] at hs
    obtain ⟨hd, ht⟩ := hs
    by_cases h1 : dst = d
    · subst h1
      rw [show Edge.add (Edge.node dst wt t) dst w = Edge.node dst w t by
        simp [Edge.add]]
      rw [Edge.cardinality, Edge.cardinality]
    · have hf2 : t.find dst = true := by
        rw [Edge.find, if_neg h1] at hf
        exact hf
      have h3 : d < dst := hd dst ((Edge.find_iff t dst).mp hf2)
      have h2 : ¬ dst < d := not_lt.mpr h3.le
      rw [show Edge.add (Edge.node d wt t) dst w
          = Edge.node d wt (t.add dst w) by simp [Edge.add, h1, h2]]
      rw [Edge.cardinality, Edge.cardinality, ih ht hf2]

theorem Edge.mem_list_src_dst (e : Edge α) (src s x : α) (w' : ℕ)
    (h : (s, x, w') ∈ e.list src) : s = src ∧ x ∈ e.dsts := by
  induction e with
  | empty => simp [Edge.list] at h
  | node d w t ih =>
    rw [Edge.list] at h
    rcases List.mem_cons.mp h with h | h
    · simp [Prod.ext_iff] at h
      exact ⟨h.1, by simp [Edge.dsts, h.2.1]⟩
    · exact ⟨(ih h).1, by simp [Edge.dsts, (ih h).2]⟩

theorem Edge.mem_list_add_self [LinearOrder α] (e : Edge α) (src dst : α) (w : ℕ) :
    (src, dst, w) ∈ (e.add dst w).list src := by
  induction e with
  | empty => simp [Edge.add, Edge.list]
  | node d wt t ih =>
    by_cases h1 : dst = d
    · subst h1
      simp [Edge.add, Edge.list]
    · by_cases h2 : dst < d
      · simp [Edge.add, h1, h2, Edge.list]
      · simp [Edge.add, h1, h2, Edge.list]
        exact ih

theorem Edge.list_add_unique [LinearOrder α] (e : Edge α) (src dst : α) (w w' : ℕ)
    (hs : e.sortedB = true) (h : (src, dst, w') ∈ (e.add dst w).list src) : w' = w := by
  induction e with
  | empty =>
    simp [Edge.add, Edge.list, Prod.ext_iff] at h
    exact h
  | node d wt t ih =>
    rw [Edge.sortedB_node] at hs
    obtain ⟨hd, ht⟩ := hs
    by_cases h1 : dst = d
    · subst h1
      rw [show Edge.add (Edge.node dst wt t) dst w = Edge.node dst w t by
        simp [Edge.add]] at h
      rw [Edge.list] at h
      rcases List.mem_cons.mp h with h | h
      · simp [Prod.ext_iff] at h
        exact h
      · exact absurd (hd dst (Edge.mem_list_src_dst t src src dst w' h).2)
          (lt_irrefl dst)
    · by_cases h2 : dst < d
      · rw [show Edge.add (Edge.node d wt t) dst w
            = Edge.node dst w (Edge.node d wt t) by simp [Edge.add, h1, h2]] at h
        rw [Edge.list] at h
        rcases List.mem_cons.mp h with h | h
        · simp [Prod.ext_iff] at h
          exact h
        · have hmem := (Edge.mem_list_src_dst (Edge.node d wt t) src src dst w' h).2
          rcases List.mem_cons.mp hmem with hmem | hmem
          · exact absurd hmem h1
          · exact absurd h2 (not_lt.mpr (hd dst hmem).le)
      · rw [show Edge.add (Edge.node d wt t) dst w
            = Edge.node d wt (t.add dst w) by simp [Edge.add, h1, h2]] at h
        rw [Edge.list] at h
        rcases List.mem_cons.mp h with h | h
        · simp [Prod.ext_iff] at h
          exact absurd h.1 h1
        · exact ih ht h

theorem Edge.dsts_delete_not_mem [LinearOrder α] (e : Edge α) (x : α)
    (hs : e.sortedB = true) : x ∉ (e.delete x).dsts := by
  induction e with
  | empty => simp [Edge.delete, Edge.dsts]
  | node d wt t ih =>
    rw [Edge.sortedB_node] at hs
    obtain ⟨hd, ht⟩ := hs
    by_cases h1 : x = d
    · subst h1
      rw [show Edge.delete (Edge.node x wt t) x = t by simp [Edge.delete]]
      exact fun hx => absurd (hd x hx) (lt_irrefl x)
    · rw [show Edge.delete (Edge.node d wt t) x = Edge.node d wt (t.delete x) by
        simp [Edge.delete, h1]]
      rw [Edge.dsts]
      intro hx
      rcases List.mem_cons.mp hx with hx | hx
      · exact h1 hx
      · exact ih ht hx

/-! ## Adjacency-list lemmas -/

theorem AdjacencyList.find_node_iff [DecidableEq α] (g : AdjacencyList α ι) (x : α) :
    g.find_node x = true ↔ x ∈ g.list_nodes := by
  induction g with
  | empty => simp [find_node, list_nodes]
  | node n i e t ih => by_cases h : x = n <;> simp [find_node, list_nodes, h, ih]

theorem AdjacencyList.wf_node [LinearOrder α] (n : α) (i : Option ι) (e : Edge α)
    (t : AdjacencyList α ι) :
    (AdjacencyList.node n i e t).wf = true ↔
      (∀ m ∈ t.list_nodes, n < m) ∧ e.sortedB = true ∧ t.wf = true := by
  simp [wf, List.all_eq_true, and_assoc]

theorem AdjacencyList.mem_list_edges_src (g : AdjacencyList α ι) (s x : α) (w : ℕ)
    (h : (s, x, w) ∈ g.list_edges) : s ∈ g.list_nodes := by
  induction g with
  | empty => simp [list_edges] at h
  | node n i e t ih =>
    rw [list_edges] at h
    rcases List.mem_append.mp h with h | h
    · simp [list_nodes, (Edge.mem_list_src_dst e n s x w h).1]
    · exact List.mem_cons_of_mem _ (ih h)

theorem AdjacencyList.list_nodes_add_edge_aux [LinearOrder α] (g : AdjacencyList α ι)
    (src dst : α) (w : ℕ) : (g._add_edge src dst w).list_nodes = g.list_nodes := by
  induction g with
  | empty => rfl
  | node n i e t ih =>
    by_cases h1 : src = n
    · simp [_add_edge, h1, list_nodes]
    · by_cases h2 : n < src
      · simp [_add_edge, h1, h2, list_nodes, ih]
      · simp [_add_edge, h1, h2, list_nodes]

theorem AdjacencyList.find_node_add_edge_aux [LinearOrder α] (g : AdjacencyList α ι)
    (src dst x : α) (w : ℕ) :
    (g._add_edge src dst w).find_node x = g.find_node x := by
  induction g with
  | empty => rfl
  | node n i e t ih =>
    by_cases h1 : src = n
    · simp [_add_edge, h1, find_node]
    · by_cases h2 : n < src
      · simp [_add_edge, h1, h2, find_node, ih]
      · simp [_add_edge, h1, h2, find_node]

theorem AdjacencyList.wf_add_edge_aux [LinearOrder α] (g : AdjacencyList α ι)
    (src dst : α) (w : ℕ) (hwf : g.wf = true) : (g._add_edge src dst w).wf = true := by
  induction g with
  | empty => rfl
  | node n i e t ih =>
    rw [wf_node] at hwf
    obtain ⟨hn, he, ht⟩ := hwf
    by_cases h1 : src = n
    · rw [show _add_edge (node n i e t) src dst w = node n i (e.add dst w) t by
        simp [_add_edge, h1]]
      exact (wf_node ..).mpr ⟨hn, Edge.sortedB_add e dst w he, ht⟩
    · by_cases h2 : n < src
      · rw [show _add_edge (node n i e t) src dst w
            = node n i e (t._add_edge src dst w) by simp [_add_edge, h1, h2]]
        refine (wf_node ..).mpr ⟨?_, he, ih ht⟩
        intro m hm
        rw [list_nodes_add_edge_aux] at hm
        exact hn m hm
      · rw [show _add_edge (node n i e t) src dst w = node n i e t by
          simp [_add_edge, h1, h2]]
        exact (wf_node ..).mpr ⟨hn, he, ht⟩

theorem AdjacencyList.add_edge_member [LinearOrder α] (g : AdjacencyList α ι)
    (src dst : α) (w : ℕ) (hs : g.find_node src = true) (hd : g.find_node dst = true) :
    g.add_edge src dst w = g._add_edge src dst w := by
  unfold add_edge
  rw [hs, hd]
  simp

theorem AdjacencyList.add_edge_twice_aux [LinearOrder α] (g : AdjacencyList α ι)
    (src dst : α) (w1 w2 : ℕ) (hwf : g.wf = true) (hs : g.find_node src = true) :
    ((g._add_edge src dst w1)._add_edge src dst w2).edge_cardinality
        = (g._add_edge src dst w1).edge_cardinality ∧
    (src, dst, w2) ∈ ((g._add_edge src dst w1)._add_edge src dst w2).list_edges ∧
    ∀ w', (src, dst, w') ∈ ((g._add_edge src dst w1)._add_edge src dst w2).list_edges →
      w' = w2 := by
  induction g with
  | empty => simp [find_node] at hs
  | node n i e t ih =>
    rw [wf_node] at hwf
    obtain ⟨hn, he, ht⟩ := hwf
    by_cases h1 : src = n
    · subst h1
      rw [show _add_edge (node src i e t) src dst w1 = node src i (e.add dst w1) t by
        simp [_add_edge]]
      rw [show _add_edge (node src i (e.add dst w1) t) src dst w2
          = node src i ((e.add dst w1).add dst w2) t by simp [_add_edge]]
      have hs1 : (e.add dst w1).sortedB = true := Edge.sortedB_add e dst w1 he
      refine ⟨?_, ?_, ?_⟩
      · rw [edge_cardinality, edge_cardinality,
          Edge.cardinality_add_present (e.add dst w1) dst w2 hs1
            (Edge.find_add_self e dst w1)]
      · rw [list_edges]
        exact List.mem_append.mpr
          (Or.inl (Edge.mem_list_add_self (e.add dst w1) src dst w2))
      · intro w' hw
        rw [list_edges] at hw
        rcases List.mem_append.mp hw with hw | hw
        · exact Edge.list_add_unique (e.add dst w1) src dst w2 w' hs1 hw
        · exact absurd (hn src (mem_list_edges_src t src dst w' hw)) (lt_irrefl src)
    · have hs2 : t.find_node src = true := by
        rw [find_node, if_neg h1] at hs
        exact hs
      by_cases h2 : n < src
      · rw [show _add_edge (node n i e t) src dst w1
            = node n i e (t._add_edge src dst w1) by simp [_add_edge, h1, h2]]
        rw [show _add_edge (node n i e (t._add_edge src dst w1)) src dst w2
            = node n i e ((t._add_edge src dst w1)._add_edge src dst w2) by
          simp [_add_edge, h1, h2]]
        obtain ⟨ihc, ihm, ihu⟩ := ih ht hs2
        refine ⟨?_, ?_, ?_⟩
        · rw [edge_cardinality, edge_cardinality, ihc]
        · rw [list_edges]
          exact List.mem_append.mpr (Or.inr ihm)
        · intro w' hw
          rw [list_edges] at hw
          rcases List.mem_append.mp hw with hw | hw
          · exact absurd (Edge.mem_list_src_dst e n src dst w' hw).1 h1
          · exact ihu w' hw
      · exact absurd (hn src ((find_node_iff t src).mp hs2)) h2

theorem AdjacencyList.delete_node_absent [LinearOrder α] (g : AdjacencyList α ι) (x : α)
    (h : g.find_node x = false) : g.delete_node x = g := by
  induction g with
  | empty => rfl
  | node n i e t ih =>
    rw [find_node] at h
    by_cases h1 : x = n
    · rw [if_pos h1] at h
      cases h
    · rw [if_neg h1] at h
      by_cases h2 : n < x
      · simp [delete_node, (show ¬ n = x from fun hn => h1 hn.symm), h2, ih h]
      · simp [delete_node, (show ¬ n = x from fun hn => h1 hn.symm), h2]

theorem AdjacencyList.delete_node_removes [LinearOrder α] (g : AdjacencyList α ι) (x : α)
    (hwf : g.wf = true) : x ∉ (g.delete_node x).list_nodes := by
  induction g with
  | empty => simp [delete_node, list_nodes]
  | node n i e t ih =>
    rw [wf_node] at hwf
    obtain ⟨hn, he, ht⟩ := hwf
    by_cases h1 : n = x
    · subst h1
      rw [show delete_node (node n i e t) n = t by simp [delete_node]]
      exact fun hx => absurd (hn n hx) (lt_irrefl n)
    · by_cases h2 : n < x
      · rw [show delete_node (node n i e t) x = node n i e (t.delete_node x) by
          simp [delete_node, h1, h2]]
        rw [list_nodes]
        intro hx
        rcases List.mem_cons.mp hx with hx | hx
        · exact h1 hx.symm
        · exact ih ht hx
      · rw [show delete_node (node n i e t) x = node n i e t by
          simp [delete_node, h1, h2]]
        rw [list_nodes]
        intro hx
        rcases List.mem_cons.mp hx with hx | hx
        · exact h1 hx.symm
        · exact absurd (hn x hx) h2

theorem AdjacencyList.delete_edges_removes [LinearOrder α] (g : AdjacencyList α ι)
    (x : α) (hwf : g.wf = true) (s : α) (w' : ℕ) :
    (s, x, w') ∉ (g.delete_edges x).list_edges := by
  induction g with
  | empty => simp [delete_edges, list_edges]
  | node n i e t ih =>
    rw [wf_node] at hwf
    obtain ⟨hn, he, ht⟩ := hwf
    rw [show delete_edges (node n i e t) x
        = node n i (e.delete x) (t.delete_edges x) from rfl]
    rw [list_edges]
    intro hx
    rcases List.mem_append.mp hx with hx | hx
    · exact Edge.dsts_delete_not_mem e x he
        (Edge.mem_list_src_dst (e.delete x) n s x w' hx).2
    · exact ih ht hx

/-! ## Claim theorems -/

/-- C1: the claim says a duplicate-name `add_node` overwrites the node's info,
does not duplicate, and does not increase `node_cardinality()`.  The code has
no equality case and appends a second node instead: inserting name 0 twice
yields two nodes both named 0 and `node_cardinality` grows from 1 to 2. -/
theorem add_node_duplicate_appends :
    ((gEmpty.add_node 0 (some 1)).add_node 0 (some 2)).node_cardinality = 2 ∧
    ((gEmpty.add_node 0 (some 1)).add_node 0 (some 2)).list_nodes = [0, 0] ∧
    (gEmpty.add_node 0 (some 1)).node_cardinality = 1 := by decide

/-- C2: the claim says `list_nodes()` stays strictly ascending under every
`add_node` sequence.  After inserting name 1 twice from the empty graph,
`list_nodes()` is `[1, 1]`, which is not strictly ascending. -/
theorem add_node_ordering_broken :
    ((gEmpty.add_node 1 none).add_node 1 none).list_nodes = [1, 1] ∧
    ¬ List.Sorted (· < ·) ((gEmpty.add_node 1 none).add_node 1 none).list_nodes := by
  refine ⟨by decide, ?_⟩
  intro h
  have : (1 : ℕ) < 1 := by
    have he : ((gEmpty.add_node 1 none).add_node 1 none).list_nodes = [1, 1] := by decide
    rw [he, List.sorted_cons] at h
    exact h.1 1 (List.mem_singleton.mpr rfl)
  exact absurd this (lt_irrefl 1)

/-- C3 counterexample: the claim says `delete_node(x)` also removes every edge
whose destination is `x`.  On the graph {a, b} (= {0, 1}) with edge a→b,
`delete_node(b)` removes the node b but the edge (a, b, 1) is still in
`list_edges()`. -/
theorem delete_node_keeps_edges_cex :
    (gAB.delete_node 1).find_node 1 = false ∧
    (0, 1, 1) ∈ (gAB.delete_node 1).list_edges := by decide

/-- C3 (amended): for every well-formed graph, `delete_node(x)` removes `x`
from `list_nodes()` and is a no-op when `x` is absent; the cascade removing
every edge with destination `x` from `list_edges()` is performed by the
separate `delete_edges(x)` operation, not by `delete_node`. -/
theorem delete_node_and_delete_edges_spec {α ι : Type} [LinearOrder α]
    (g : AdjacencyList α ι) (x : α) (hwf : g.wf = true) :
    (g.find_node x = false → g.delete_node x = g) ∧
    x ∉ (g.delete_node x).list_nodes ∧
    ∀ s w', (s, x, w') ∉ (g.delete_edges x).list_edges :=
  ⟨fun h => AdjacencyList.delete_node_absent g x h,
   AdjacencyList.delete_node_removes g x hwf,
   fun s w' => AdjacencyList.delete_edges_removes g x hwf s w'⟩

theorem delete_node_and_delete_edges_spec_witness :
    gAB.wf = true ∧ ((1 : ℕ) ∉ (gAB.delete_node 1).list_nodes ∧
      ∀ w', ((0 : ℕ), (1 : ℕ), w') ∉ (gAB.delete_edges 1).list_edges) :=
  ⟨by decide,
    ⟨(delete_node_and_delete_edges_spec gAB 1 (by decide)).2.1,
     fun w' => (delete_node_and_delete_edges_spec gAB 1 (by decide)).2.2 0 w'⟩⟩

/-- C4: on the graph {a, b, c} (= {0, 1, 2}) with edges a→b (weight 1) and
b→c (weight 2), `dijkstra(g, a)` returns the distance array
[None, 1, 3] and the predecessor array [None, a, b], indexed by
ascending-name node order. -/
theorem dijkstra_abc_example :
    dijkstra gABC 0 = ([none, some 1, some 3], [none, some 0, some 1]) := by decide

/-- C5: for every graph, every diagonal cell of the matrix returned by
`warshall` inside the `node_cardinality() × node_cardinality()` window is
`True` (the diagonal of `floyd` is forced to distance 0). -/
theorem warshall_diag_true {α ι : Type} [DecidableEq α] (g : AdjacencyList α ι)
    (i : ℕ) (hi : i < g.node_cardinality) : warshall g i i = true := by
  have h0 : floyd g i i = 0 := by
    unfold floyd floydLoop
    exact floydFold_diag g.node_cardinality i (List.range g.node_cardinality)
      (fun x hx => List.mem_range.mp hx) (List.mem_range.mpr hi) _
  unfold warshall
  rw [h0]
  simp

theorem warshall_diag_true_witness :
    0 < gAB.node_cardinality ∧ warshall gAB 0 0 = true :=
  ⟨by decide, warshall_diag_true gAB 0 (by decide)⟩

/-- C6: for every graph (weights are naturals, hence non-negative), the
matrix returned by `floyd` satisfies the triangle inequality
`floyd(g)[i][j] ≤ floyd(g)[i][k] + floyd(g)[k][j]` on all indices inside
the `node_cardinality()` window, with `⊤` as the unreachable sentinel. -/
theorem floyd_triangle {α ι : Type} [DecidableEq α] (g : AdjacencyList α ι)
    (i j k : ℕ) (hi : i < g.node_cardinality) (hj : j < g.node_cardinality)
    (hk : k < g.node_cardinality) :
    floyd g i j ≤ floyd g i k + floyd g k j := by
  unfold floyd floydLoop
  exact floydFold_T g.node_cardinality k hk (List.range g.node_cardinality)
    (fun x hx => List.mem_range.mp hx) (List.mem_range.mpr hk) _ i j hi hj

theorem floyd_triangle_witness :
    0 < gAB.node_cardinality ∧ 1 < gAB.node_cardinality ∧
    floyd gAB 0 1 ≤ floyd gAB 0 1 + floyd gAB 1 1 :=
  ⟨by decide, by decide, floyd_triangle gAB 0 1 1 (by decide) (by decide) (by decide)⟩

/-- C7: on the undirected (mirrored) graph {a, b, c} (= {0, 1, 2}) with edges
a–b (1), a–c (3), b–c (1), `prim(g, a)` returns the lowcost array
[None, 1, 1] and the closest array [None, a, b], indexed by ascending-name
node order. -/
theorem prim_abc_example :
    prim gPrim3 0 = ([none, some 1, some 1], [none, some 0, some 1]) := by decide

/-- C8: if `src` or `dst` is not a member node, `add_edge(src, dst, weight)`
returns the graph completely unchanged and is not an error. -/
theorem add_edge_missing_endpoint_noop {α ι : Type} [LinearOrder α]
    (g : AdjacencyList α ι) (src dst : α) (w : ℕ)
    (h : g.find_node src = false ∨ g.find_node dst = false) :
    g.add_edge src dst w = g := by
  unfold AdjacencyList.add_edge
  rcases h with h | h <;> rw [h] <;> simp

theorem add_edge_missing_endpoint_noop_witness :
    gAB.find_node 5 = false ∧ gAB.add_edge 5 1 9 = gAB :=
  ⟨by decide, add_edge_missing_endpoint_noop gAB 5 1 9 (Or.inl (by decide))⟩

/-- C9: for every well-formed graph in which `src` and `dst` are members,
`add_edge(src, dst, w1)` followed by `add_edge(src, dst, w2)` leaves
`edge_cardinality()` unchanged relative to the first call, and the stored
weight of the (src, dst) edge in `list_edges()` is `w2`. -/
theorem add_edge_overwrites_weight {α ι : Type} [LinearOrder α]
    (g : AdjacencyList α ι) (src dst : α) (w1 w2 : ℕ) (hwf : g.wf = true)
    (hs : g.find_node src = true) (hd : g.find_node dst = true) :
    ((g.add_edge src dst w1).add_edge src dst w2).edge_cardinality
        = (g.add_edge src dst w1).edge_cardinality ∧
    (src, dst, w2) ∈ ((g.add_edge src dst w1).add_edge src dst w2).list_edges ∧
    ∀ w', (src, dst, w') ∈ ((g.add_edge src dst w1).add_edge src dst w2).list_edges →
      w' = w2 := by
  have e1 : g.add_edge src dst w1 = g._add_edge src dst w1 :=
    AdjacencyList.add_edge_member g src dst w1 hs hd
  have hs1 : (g._add_edge src dst w1).find_node src = true := by
    rw [AdjacencyList.find_node_add_edge_aux]
    exact hs
  have hd1 : (g._add_edge src dst w1).find_node dst = true := by
    rw [AdjacencyList.find_node_add_edge_aux]
    exact hd
  have e2 : (g._add_edge src dst w1).add_edge src dst w2
      = (g._add_edge src dst w1)._add_edge src dst w2 :=
    AdjacencyList.add_edge_member _ src dst w2 hs1 hd1
  rw [e1, e2]
  exact AdjacencyList.add_edge_twice_aux g src dst w1 w2 hwf hs

theorem add_edge_overwrites_weight_witness :
    gAB.wf = true ∧ gAB.find_node 0 = true ∧ gAB.find_node 1 = true ∧
    (0, 1, 7) ∈ ((gAB.add_edge 0 1 5).add_edge 0 1 7).list_edges :=
  ⟨by decide, by decide, by decide,
    (add_edge_overwrites_weight gAB 0 1 5 7 (by decide) (by decide) (by decide)).2.1⟩

/-- C10: both `dijkstra` and `prim` report (None, None) in their output
arrays for every node whose final computed cost is 0 — not only the start
node; in particular, on the graph {a, b} (= {0, 1}) with a zero-weight edge
a→b, dijkstra reports b's distance as None instead of 0. -/
theorem zero_cost_reported_none :
    (∀ (α ι : Type) [LinearOrder α] (g : AdjacencyList α ι) (start : α)
        (i : ℕ) (x : α),
        (dijkstraState g start).1[i]? = some x →
        ((dijkstraState g start).2 x).1 = 0 →
        (dijkstra g start).1[i]? = some none ∧
        (dijkstra g start).2[i]? = some none) ∧
    (∀ (α ι : Type) [LinearOrder α] (g : AdjacencyList α ι) (start : α)
        (i : ℕ) (x : α),
        g.list_nodes[i]? = some x →
        (primScr g start x).1 = 0 →
        (prim g start).1[i]? = some none ∧
        (prim g start).2[i]? = some none) ∧
    dijkstra gZero 0 = ([none, none], [none, none]) := by
  refine ⟨?_, ?_, by decide⟩
  · intro α ι inst g start i x hx h0
    have h1 : (dijkstra g start).1 = (dijkstraState g start).1.map
        (fun x => if ((dijkstraState g start).2 x).1 = 0 then none
                  else some ((dijkstraState g start).2 x).1) := rfl
    have h2 : (dijkstra g start).2 = (dijkstraState g start).1.map
        (fun x => if ((dijkstraState g start).2 x).1 = 0 then none
                  else ((dijkstraState g start).2 x).2) := rfl
    rw [h1, h2, List.getElem?_map, List.getElem?_map, hx]
    simp [h0]
  · intro α ι inst g start i x hx h0
    have h1 : (prim g start).1 = g.list_nodes.map
        (fun x => if (primScr g start x).1 = 0 then none
                  else some (primScr g start x).1) := rfl
    have h2 : (prim g start).2 = g.list_nodes.map
        (fun x => if (primScr g start x).1 = 0 then none
                  else (primScr g start x).2) := rfl
    rw [h1, h2, List.getElem?_map, List.getElem?_map, hx]
    simp [h0]

theorem zero_cost_reported_none_witness :
    (dijkstraState gZero 0).1[1]? = some 1 ∧ ((dijkstraState gZero 0).2 1).1 = 0 ∧
    (dijkstra gZero 0).1[1]? = some none ∧ (dijkstra gZero 0).2[1]? = some none :=
  ⟨by decide, by decide,
    (zero_cost_reported_none.1 ℕ ℕ gZero 0 1 1 (by decide) (by decide)).1,
    (zero_cost_reported_none.1 ℕ ℕ gZero 0 1 1 (by decide) (by decide)).2⟩
